import Mathlib

/-!
# Verification of `rsicalculator.py` (CryptoRSITracker)

Shallow embedding of the core of `src/rsicalculator.py`:

* `calculate_rsi` embeds `CryptoRSITracker.calculate_rsi` (lines 95-119).
  Prices and all arithmetic are modelled over `ℚ` (exact rationals standing
  for the runtime's float arithmetic on these small integer examples);
  Python's `round(x, 2)` is modelled as round-half-to-even at two decimal
  places, `np.diff` as consecutive differences, `np.mean` as sum divided by
  length, and the slice `xs[-k:]` by `sliceLast`.
* `runStep` embeds one iteration of the `while True` body of
  `CryptoRSITracker.run` (lines 140-168): a fetch outcome (success price or
  one of the three re-raised error kinds of `fetch_price`), the append to
  `self.prices`, the RSI computation, the conditional `log_data` call (whose
  own internal failures are swallowed by its `try/except`), the trim of the
  buffer to the last `2 * period` entries, and the sleep (jittered normal
  delay on success, `min(api_delay * 2, 300)` backoff on failure).
* `runTrace` / `runPrices` iterate `runStep` over a finite sequence of
  per-iteration inputs, producing the observable outputs and the final
  price-history state.
-/

namespace RSICalc

/-- `np.diff(prices)`: consecutive differences, element `i` is
`prices[i+1] - prices[i]`. -/
def npDiff (l : List ℚ) : List ℚ := List.zipWith (fun a b => b - a) l l.tail

/-- Python slice `l[-k:]`: the last `k` elements of `l` when `k ≥ 1` (the
whole list if `l` is shorter than `k`), and — as in Python, where `l[-0:]`
is `l[0:]` — the whole list when `k = 0`. -/
def sliceLast (k : ℕ) (l : List ℚ) : List ℚ :=
  if k = 0 then l else l.drop (l.length - k)

/-- `np.mean`: arithmetic mean of a list, its sum divided by its length. -/
def mean (l : List ℚ) : ℚ := l.sum / l.length

/-- Round a rational to the nearest integer, ties to even: the rounding mode
of Python's builtin `round`. -/
def roundHalfEven (q : ℚ) : ℤ :=
  if q - ⌊q⌋ < 1/2 then ⌊q⌋
  else if 1/2 < q - ⌊q⌋ then ⌊q⌋ + 1
  else if 2 ∣ ⌊q⌋ then ⌊q⌋ else ⌊q⌋ + 1

/-- Python `round(q, 2)`: round to two decimal places, ties to even. -/
def round2 (q : ℚ) : ℚ := (roundHalfEven (100 * q) : ℚ) / 100

/-- The local `gains` of `calculate_rsi` (source line 104):
`np.where(deltas > 0, deltas, 0)` over `deltas = np.diff(prices)`. -/
def gains (prices : List ℚ) : List ℚ :=
  (npDiff prices).map fun d => if 0 < d then d else 0

/-- The local `losses` of `calculate_rsi` (source line 105):
`np.where(deltas < 0, -deltas, 0)` over `deltas = np.diff(prices)`. -/
def losses (prices : List ℚ) : List ℚ :=
  (npDiff prices).map fun d => if d < 0 then -d else 0

/-- The local `avg_gain` of `calculate_rsi` (source line 108):
`np.mean(gains[-self.period:])`. -/
def avg_gain (period : ℕ) (prices : List ℚ) : ℚ :=
  mean (sliceLast period (gains prices))

/-- The local `avg_loss` of `calculate_rsi` (source line 109):
`np.mean(losses[-self.period:])`. -/
def avg_loss (period : ℕ) (prices : List ℚ) : ℚ :=
  mean (sliceLast period (losses prices))

/-- `CryptoRSITracker.calculate_rsi` (source lines 95-119).  Returns `none`
when fewer than `period + 1` prices are available; otherwise computes the
deltas, splits them into gains and losses, averages the last `period` of
each, returns `100.0` when the average loss is zero, and otherwise the
RSI formula `100 - 100 / (1 + rs)` with `rs = avg_gain / avg_loss`,
rounded to two decimal places. -/
def calculate_rsi (period : ℕ) (prices : List ℚ) : Option ℚ :=
  if prices.length < period + 1 then none
  else if avg_loss period prices = 0 then some 100
  else
    some (round2 (100 - (100 / (1 + avg_gain period prices / avg_loss period prices))))

/-- The three error kinds `fetch_price` logs and re-raises (source lines
82-93): network/transport errors, response-parsing errors, unexpected
errors. -/
inductive ErrKind
  | transport
  | parse
  | unexpected
deriving DecidableEq

/-- Outcome of one `fetch_price` call: a price, or a raised error. -/
inductive FetchOutcome
  | ok (price : ℚ)
  | err (k : ErrKind)
deriving DecidableEq

/-- The environment-supplied inputs of one loop iteration: the fetch
outcome, the jitter drawn by `random.uniform(-2, 2)`, and whether the CSV
append inside `log_data` fails (an error `log_data` catches itself). -/
structure IterInput where
  fetch : FetchOutcome
  jitter : ℚ
  sinkFails : Bool
deriving DecidableEq

/-- The observable outcome of one loop iteration: the price history after
the iteration, the arguments of the `log_data` call if one was made, the
row actually appended to the CSV (none when the sink failed internally),
whether the outer `except` logged an error, and the duration slept. -/
structure IterOutput where
  prices : List ℚ
  sinkCall : Option (ℚ × ℚ)
  rowWritten : Option (ℚ × ℚ)
  errLogged : Bool
  slept : ℚ
deriving DecidableEq

/-- One iteration of the `while True` body of `CryptoRSITracker.run`
(source lines 140-168).  On a fetch failure the `except` branch runs: the
history is untouched, no `log_data` call is made, the error is logged, and
the loop sleeps `min(api_delay * 2, 300)`.  On success the price is
appended, the RSI computed over the grown buffer, `log_data` called iff the
RSI is available, the buffer trimmed to its last `2 * period` entries when
it exceeds that length, and the loop sleeps `api_delay + jitter`. -/
def runStep (period : ℕ) (api_delay : ℚ) (prices : List ℚ) (inp : IterInput) :
    IterOutput :=
  match inp.fetch with
  | .err _ => ⟨prices, none, none, true, min (api_delay * 2) 300⟩
  | .ok p =>
    let prices1 := prices ++ [p]
    let rsi := calculate_rsi period prices1
    let call := rsi.map (fun v => (p, v))
    let row := if inp.sinkFails then none else call
    let prices2 :=
      if period * 2 < prices1.length then sliceLast (period * 2) prices1
      else prices1
    ⟨prices2, call, row, false, api_delay + inp.jitter⟩

/-- The outputs of the loop iterations driven by a finite sequence of
per-iteration inputs, starting from price history `st`. -/
def runTrace (period : ℕ) (api_delay : ℚ) : List ℚ → List IterInput → List IterOutput
  | _, [] => []
  | st, inp :: rest =>
    let out := runStep period api_delay st inp
    out :: runTrace period api_delay out.prices rest

/-- The price history after the loop has consumed a finite sequence of
per-iteration inputs, starting from history `st`. -/
def runPrices (period : ℕ) (api_delay : ℚ) : List ℚ → List IterInput → List ℚ
  | st, [] => st
  | st, inp :: rest => runPrices period api_delay (runStep period api_delay st inp).prices rest

/-- The prices successfully fetched in a sequence of iteration inputs, in
order. -/
def okPrices : List IterInput → List ℚ
  | [] => []
  | inp :: rest =>
    match inp.fetch with
    | .ok p => p :: okPrices rest
    | .err _ => okPrices rest

/-- Whether an iteration input carries a failed fetch. -/
def fetchFailed (inp : IterInput) : Bool :=
  match inp.fetch with
  | .ok _ => false
  | .err _ => true

/-- The indicator value the code computes in one successful iteration:
append first, compute over the grown (possibly `2 * period + 1`-long)
buffer, trim afterwards (source lines 144-158). -/
def codeIterValue (period : ℕ) (prices : List ℚ) (price : ℚ) : Option ℚ :=
  calculate_rsi period (prices ++ [price])

/-- Modelled from the spec: the spec's iteration order trims the history to
at most `2 × period` entries immediately after the append and computes the
indicator over the retained buffer. -/
def specIterValue (period : ℕ) (prices : List ℚ) (price : ℚ) : Option ℚ :=
  calculate_rsi period (sliceLast (period * 2) (prices ++ [price]))

/-! ## Helper lemmas -/

theorem sliceLast_of_length_le {k : ℕ} {l : List ℚ} (h : l.length ≤ k) :
    sliceLast k l = l := by
  unfold sliceLast
  split
  · rfl
  · rw [Nat.sub_eq_zero_of_le h, List.drop_zero]

theorem length_sliceLast {k : ℕ} (hk : k ≠ 0) (l : List ℚ) :
    (sliceLast k l).length = min k l.length := by
  unfold sliceLast
  rw [if_neg hk, List.length_drop]
  omega

theorem sliceLast_subset {k : ℕ} {l : List ℚ} {x : ℚ} (hx : x ∈ sliceLast k l) :
    x ∈ l := by
  unfold sliceLast at hx
  split at hx
  · exact hx
  · exact List.drop_subset _ l hx

theorem sliceLast_map (k : ℕ) (f : ℚ → ℚ) (l : List ℚ) :
    sliceLast k (l.map f) = (sliceLast k l).map f := by
  unfold sliceLast
  split
  · rfl
  · rw [List.length_map, List.map_drop]

theorem sliceLast_sliceLast {a b : ℕ} (ha : a ≠ 0) (hb : b ≠ 0) (hab : a ≤ b)
    (l : List ℚ) : sliceLast a (sliceLast b l) = sliceLast a l := by
  unfold sliceLast
  rw [if_neg ha, if_neg hb, if_neg ha, List.drop_drop, List.length_drop]
  congr 1
  omega

theorem sliceLast_append_singleton {k : ℕ} (hk : k ≠ 0) (l : List ℚ) (a : ℚ) :
    sliceLast k (sliceLast k l ++ [a]) = sliceLast k (l ++ [a]) := by
  rcases le_or_lt l.length k with h | h
  · rw [sliceLast_of_length_le h]
  · have hsl : sliceLast k l = l.drop (l.length - k) := by
      unfold sliceLast
      rw [if_neg hk]
    have hlen : (l.drop (l.length - k)).length = k := by
      rw [List.length_drop]; omega
    have e1 : sliceLast k (l ++ [a]) = l.drop (l.length + 1 - k) ++ [a] := by
      unfold sliceLast
      rw [if_neg hk, List.length_append, List.length_cons, List.length_nil,
        List.drop_append_of_le_length (by omega)]
    have e2 : sliceLast k (l.drop (l.length - k) ++ [a]) =
        (l.drop (l.length - k)).drop 1 ++ [a] := by
      unfold sliceLast
      rw [if_neg hk, List.length_append, hlen, List.length_cons, List.length_nil,
        List.drop_append_of_le_length (by omega)]
      congr 2
      omega
    rw [hsl, e2, e1, List.drop_drop]
    congr 2
    omega

theorem mean_nonneg {l : List ℚ} (h : ∀ x ∈ l, 0 ≤ x) : 0 ≤ mean l := by
  unfold mean
  exact div_nonneg (List.sum_nonneg h) (by positivity)

theorem mean_pos {l : List ℚ} (hne : l ≠ []) (h : ∀ x ∈ l, 0 < x) : 0 < mean l := by
  unfold mean
  apply div_pos (List.sum_pos l h hne)
  have : 0 < l.length := List.length_pos.mpr hne
  exact_mod_cast this

theorem mean_eq_zero {l : List ℚ} (h : ∀ x ∈ l, x = 0) : mean l = 0 := by
  unfold mean
  rw [List.sum_eq_zero h, zero_div]

theorem floor_le_roundHalfEven (q : ℚ) : ⌊q⌋ ≤ roundHalfEven q := by
  unfold roundHalfEven
  split
  · exact le_refl _
  · split
    · omega
    · split <;> omega

theorem roundHalfEven_le_floor_add_one (q : ℚ) : roundHalfEven q ≤ ⌊q⌋ + 1 := by
  unfold roundHalfEven
  split
  · omega
  · split
    · omega
    · split <;> omega

theorem roundHalfEven_intCast (n : ℤ) : roundHalfEven (n : ℚ) = n := by
  unfold roundHalfEven
  rw [Int.floor_intCast, if_pos]
  norm_num

theorem round2_nonneg {q : ℚ} (h : 0 ≤ q) : 0 ≤ round2 q := by
  unfold round2
  have h1 : (0 : ℤ) ≤ ⌊100 * q⌋ := Int.floor_nonneg.mpr (by positivity)
  have h2 : (0 : ℤ) ≤ roundHalfEven (100 * q) :=
    le_trans h1 (floor_le_roundHalfEven _)
  positivity

theorem round2_le_100 {q : ℚ} (h : q < 100) : round2 q ≤ 100 := by
  unfold round2
  have h1 : ⌊100 * q⌋ < 10000 := by
    rw [Int.floor_lt]
    push_cast
    linarith
  have h2 : roundHalfEven (100 * q) ≤ 10000 :=
    le_trans (roundHalfEven_le_floor_add_one _) (by omega)
  rw [div_le_iff₀ (by norm_num)]
  exact_mod_cast le_trans h2 (by norm_num)

theorem round2_intCast (n : ℤ) : round2 ((n : ℚ) / 100) = (n : ℚ) / 100 := by
  unfold round2
  rw [mul_div_cancel₀ _ (by norm_num : (100 : ℚ) ≠ 0), roundHalfEven_intCast]

theorem length_npDiff (l : List ℚ) : (npDiff l).length = l.length - 1 := by
  unfold npDiff
  rw [List.length_zipWith, List.length_tail]
  omega

theorem npDiff_drop (l : List ℚ) (k : ℕ) : npDiff (l.drop k) = (npDiff l).drop k := by
  have ht : l.tail.drop k = l.drop (k + 1) := by
    rw [← List.drop_one, List.drop_drop, Nat.add_comm]
  unfold npDiff
  rw [List.drop_zipWith, List.tail_drop, ht]

theorem npDiff_pos_of_chain :
    ∀ {l : List ℚ}, List.Chain' (· < ·) l → ∀ d ∈ npDiff l, 0 < d
  | [], _, d, hd => by simp [npDiff] at hd
  | [_], _, d, hd => by simp [npDiff] at hd
  | a :: b :: t, hc, d, hd => by
    rw [List.chain'_cons] at hc
    have he : npDiff (a :: b :: t) = (b - a) :: npDiff (b :: t) := rfl
    rw [he, List.mem_cons] at hd
    rcases hd with rfl | hd
    · exact sub_pos.mpr hc.1
    · exact npDiff_pos_of_chain hc.2 d hd

theorem npDiff_neg_of_chain :
    ∀ {l : List ℚ}, List.Chain' (· > ·) l → ∀ d ∈ npDiff l, d < 0
  | [], _, d, hd => by simp [npDiff] at hd
  | [_], _, d, hd => by simp [npDiff] at hd
  | a :: b :: t, hc, d, hd => by
    rw [List.chain'_cons] at hc
    have he : npDiff (a :: b :: t) = (b - a) :: npDiff (b :: t) := rfl
    rw [he, List.mem_cons] at hd
    rcases hd with rfl | hd
    · exact sub_neg.mpr hc.1
    · exact npDiff_neg_of_chain hc.2 d hd

theorem length_gains (l : List ℚ) : (gains l).length = l.length - 1 := by
  unfold gains
  rw [List.length_map, length_npDiff]

theorem length_losses (l : List ℚ) : (losses l).length = l.length - 1 := by
  unfold losses
  rw [List.length_map, length_npDiff]

theorem gains_drop (l : List ℚ) (k : ℕ) : gains (l.drop k) = (gains l).drop k := by
  unfold gains
  rw [npDiff_drop, List.map_drop]

theorem losses_drop (l : List ℚ) (k : ℕ) : losses (l.drop k) = (losses l).drop k := by
  unfold losses
  rw [npDiff_drop, List.map_drop]

theorem avg_gain_sliceLast {period : ℕ} (hp : period ≠ 0) {l : List ℚ}
    (h : period + 1 ≤ l.length) :
    avg_gain period (sliceLast (period + 1) l) = avg_gain period l := by
  have hsl : sliceLast (period + 1) l = l.drop (l.length - (period + 1)) := by
    unfold sliceLast
    rw [if_neg (by omega)]
  have hlen := length_gains l
  unfold avg_gain
  congr 1
  rw [hsl, gains_drop]
  unfold sliceLast
  rw [if_neg hp, if_neg hp, List.length_drop, List.drop_drop]
  congr 1
  omega

theorem avg_loss_sliceLast {period : ℕ} (hp : period ≠ 0) {l : List ℚ}
    (h : period + 1 ≤ l.length) :
    avg_loss period (sliceLast (period + 1) l) = avg_loss period l := by
  have hsl : sliceLast (period + 1) l = l.drop (l.length - (period + 1)) := by
    unfold sliceLast
    rw [if_neg (by omega)]
  have hlen := length_losses l
  unfold avg_loss
  congr 1
  rw [hsl, losses_drop]
  unfold sliceLast
  rw [if_neg hp, if_neg hp, List.length_drop, List.drop_drop]
  congr 1
  omega

theorem avg_gain_nonneg (period : ℕ) (prices : List ℚ) :
    0 ≤ avg_gain period prices := by
  apply mean_nonneg
  intro x hx
  have hx' := sliceLast_subset hx
  unfold gains at hx'
  rcases List.mem_map.mp hx' with ⟨d, _, rfl⟩
  split <;> simp_all [le_of_lt]

theorem avg_loss_nonneg (period : ℕ) (prices : List ℚ) :
    0 ≤ avg_loss period prices := by
  apply mean_nonneg
  intro x hx
  have hx' := sliceLast_subset hx
  unfold losses at hx'
  rcases List.mem_map.mp hx' with ⟨d, _, rfl⟩
  split <;> simp_all [le_of_lt]

theorem calculate_rsi_of_lt {period : ℕ} {prices : List ℚ}
    (h : prices.length < period + 1) : calculate_rsi period prices = none := by
  unfold calculate_rsi
  rw [if_pos h]

theorem calculate_rsi_of_avg_loss_eq_zero {period : ℕ} {prices : List ℚ}
    (h : period + 1 ≤ prices.length) (h0 : avg_loss period prices = 0) :
    calculate_rsi period prices = some 100 := by
  unfold calculate_rsi
  rw [if_neg (by omega), if_pos h0]

theorem calculate_rsi_of_avg_loss_ne_zero {period : ℕ} {prices : List ℚ}
    (h : period + 1 ≤ prices.length) (h0 : avg_loss period prices ≠ 0) :
    calculate_rsi period prices =
      some (round2
        (100 - (100 / (1 + avg_gain period prices / avg_loss period prices)))) := by
  unfold calculate_rsi
  rw [if_neg (by omega), if_neg h0]

theorem calculate_rsi_sliceLast {period : ℕ} (hp : period ≠ 0) {l : List ℚ}
    (h : period + 1 ≤ l.length) :
    calculate_rsi period (sliceLast (period + 1) l) = calculate_rsi period l := by
  have hlen : (sliceLast (period + 1) l).length = period + 1 := by
    rw [length_sliceLast (by omega)]
    omega
  have hg := avg_gain_sliceLast hp h
  have hl' := avg_loss_sliceLast hp h
  have hlen' : period + 1 ≤ (sliceLast (period + 1) l).length := le_of_eq hlen.symm
  by_cases h0 : avg_loss period l = 0
  · rw [calculate_rsi_of_avg_loss_eq_zero hlen' (by rw [hl']; exact h0),
      calculate_rsi_of_avg_loss_eq_zero h h0]
  · rw [calculate_rsi_of_avg_loss_ne_zero hlen' (by rw [hl']; exact h0),
      calculate_rsi_of_avg_loss_ne_zero h h0, hg, hl']

theorem calculate_rsi_sliceLast_double {period : ℕ} (hp : period ≠ 0) (l : List ℚ) :
    calculate_rsi period (sliceLast (period * 2) l) = calculate_rsi period l := by
  rcases le_or_lt l.length (period * 2) with h | h
  · rw [sliceLast_of_length_le h]
  · have hlen : (sliceLast (period * 2) l).length = period * 2 := by
      rw [length_sliceLast (by omega)]
      omega
    have h1 : period + 1 ≤ (sliceLast (period * 2) l).length := by omega
    have h2 : period + 1 ≤ l.length := by omega
    rw [← calculate_rsi_sliceLast hp h1, ← calculate_rsi_sliceLast hp h2,
      sliceLast_sliceLast (by omega) (by omega) (by omega)]

theorem avg_loss_eq_zero_of_no_neg {period : ℕ} {prices : List ℚ}
    (hd : ∀ d ∈ sliceLast period (npDiff prices), 0 ≤ d) :
    avg_loss period prices = 0 := by
  unfold avg_loss
  apply mean_eq_zero
  intro x hx
  have hc : sliceLast period (losses prices) =
      (sliceLast period (npDiff prices)).map fun d => if d < 0 then -d else 0 := by
    unfold losses
    exact sliceLast_map _ _ _
  rw [hc, List.mem_map] at hx
  rcases hx with ⟨d, hdm, rfl⟩
  rw [if_neg (not_lt.mpr (hd d hdm))]

theorem avg_gain_eq_zero_of_no_pos {period : ℕ} {prices : List ℚ}
    (hd : ∀ d ∈ sliceLast period (npDiff prices), d ≤ 0) :
    avg_gain period prices = 0 := by
  unfold avg_gain
  apply mean_eq_zero
  intro x hx
  have hc : sliceLast period (gains prices) =
      (sliceLast period (npDiff prices)).map fun d => if 0 < d then d else 0 := by
    unfold gains
    exact sliceLast_map _ _ _
  rw [hc, List.mem_map] at hx
  rcases hx with ⟨d, hdm, rfl⟩
  rw [if_neg (not_lt.mpr (hd d hdm))]

theorem avg_loss_pos {period : ℕ} (hp : period ≠ 0) {prices : List ℚ}
    (hlen : period ≤ (npDiff prices).length)
    (hd : ∀ d ∈ sliceLast period (npDiff prices), d < 0) :
    0 < avg_loss period prices := by
  unfold avg_loss
  have hc : sliceLast period (losses prices) =
      (sliceLast period (npDiff prices)).map fun d => if d < 0 then -d else 0 := by
    unfold losses
    exact sliceLast_map _ _ _
  apply mean_pos
  · rw [← List.length_pos, hc, List.length_map, length_sliceLast hp]
    omega
  · intro x hx
    rw [hc, List.mem_map] at hx
    rcases hx with ⟨d, hdm, rfl⟩
    rw [if_pos (hd d hdm)]
    exact neg_pos.mpr (hd d hdm)

theorem errLogged_runStep (period : ℕ) (api_delay : ℚ) (st : List ℚ)
    (inp : IterInput) : (runStep period api_delay st inp).errLogged = fetchFailed inp := by
  cases h : inp.fetch <;> simp [runStep, fetchFailed, h]

theorem prices_runStep_ok (period : ℕ) (api_delay : ℚ)
    (st : List ℚ) {inp : IterInput} {q : ℚ} (hf : inp.fetch = FetchOutcome.ok q) :
    (runStep period api_delay st inp).prices = sliceLast (period * 2) (st ++ [q]) := by
  simp only [runStep, hf]
  split
  · rfl
  · rw [sliceLast_of_length_le (by omega)]

theorem runPrices_invariant {period : ℕ} (hp : period ≠ 0) (api_delay : ℚ) :
    ∀ (inputs : List IterInput) (obs st : List ℚ), st = sliceLast (period * 2) obs →
      runPrices period api_delay st inputs =
        sliceLast (period * 2) (obs ++ okPrices inputs) := by
  intro inputs
  induction inputs with
  | nil =>
    intro obs st h
    rw [runPrices, okPrices, List.append_nil]
    exact h
  | cons inp rest ih =>
    intro obs st h
    cases hf : inp.fetch with
    | err k =>
      have hstep : (runStep period api_delay st inp).prices = st := by
        simp [runStep, hf]
      rw [runPrices, hstep, okPrices, hf, ih obs st h]
    | ok q =>
      have hstep := prices_runStep_ok period api_delay st hf
      have hobs : sliceLast (period * 2) (st ++ [q]) =
          sliceLast (period * 2) (obs ++ [q]) := by
        rw [h, sliceLast_append_singleton (by omega)]
      rw [runPrices, okPrices, hf, hstep, ih (obs ++ [q]) _ hobs,
        List.append_assoc]
      rfl

theorem runTrace_length_and_errLog (period : ℕ) (api_delay : ℚ) :
    ∀ (inputs : List IterInput) (st : List ℚ),
      (runTrace period api_delay st inputs).length = inputs.length ∧
        (runTrace period api_delay st inputs).map IterOutput.errLogged =
          inputs.map fetchFailed := by
  intro inputs
  induction inputs with
  | nil =>
    intro st
    exact ⟨rfl, rfl⟩
  | cons inp rest ih =>
    intro st
    constructor
    · rw [runTrace, List.length_cons, List.length_cons,
        (ih (runStep period api_delay st inp).prices).1]
    · rw [runTrace, List.map_cons, List.map_cons, errLogged_runStep,
        (ih (runStep period api_delay st inp).prices).2]

/-! ## Claim theorems -/

/-- C1: with period 3 and price history [10, 12, 11, 13], `calculate_rsi`
returns exactly 80.00: the deltas are [2, -1, 2], the gains [2, 0, 2], the
losses [0, 1, 0], the average gain 4/3, the average loss 1/3, the relative
strength 4, and the RSI 100 - 100/5 = 80, unchanged by the rounding to two
decimal places. -/
theorem rsi_concrete_example_80 :
    npDiff [10, 12, 11, 13] = [2, -1, 2] ∧
    gains [10, 12, 11, 13] = [2, 0, 2] ∧
    losses [10, 12, 11, 13] = [0, 1, 0] ∧
    avg_gain 3 [10, 12, 11, 13] = 4 / 3 ∧
    avg_loss 3 [10, 12, 11, 13] = 1 / 3 ∧
    (4 / 3 : ℚ) / (1 / 3) = 4 ∧
    calculate_rsi 3 [10, 12, 11, 13] = some 80 := by
  refine ⟨?_, ?_, ?_, ?_, ?_, ?_, ?_⟩
  · simp [npDiff]
    norm_num
  · simp [gains, npDiff]
    norm_num
  · simp [losses, npDiff]
    norm_num
  · simp [avg_gain, gains, npDiff, sliceLast, mean]
    norm_num
  · simp [avg_loss, losses, npDiff, sliceLast, mean]
    norm_num
  · norm_num
  · simp [calculate_rsi, avg_gain, avg_loss, gains, losses, npDiff, sliceLast,
      mean, round2, roundHalfEven]
    norm_num [Int.floor_eq_iff]

/-- C2: for every period `p ≥ 1` and every price list of length `≥ p + 1`,
`calculate_rsi` returns a value, and that value lies in the closed interval
[0, 100]. -/
theorem rsi_value_in_range (period : ℕ) (prices : List ℚ)
    (_hp : 1 ≤ period) (hl : period + 1 ≤ prices.length) :
    calculate_rsi period prices ≠ none ∧
      0 ≤ (calculate_rsi period prices).getD 0 ∧
      (calculate_rsi period prices).getD 0 ≤ 100 := by
  by_cases h0 : avg_loss period prices = 0
  · rw [calculate_rsi_of_avg_loss_eq_zero hl h0]
    refine ⟨by simp, by norm_num, by norm_num⟩
  · rw [calculate_rsi_of_avg_loss_ne_zero hl h0]
    have hg := avg_gain_nonneg period prices
    have hlo : 0 < avg_loss period prices :=
      lt_of_le_of_ne (avg_loss_nonneg period prices) (Ne.symm h0)
    have hrs0 : 0 ≤ avg_gain period prices / avg_loss period prices :=
      div_nonneg hg (le_of_lt hlo)
    have h1 : (0 : ℚ) < 1 + avg_gain period prices / avg_loss period prices := by
      linarith
    have hle : 100 / (1 + avg_gain period prices / avg_loss period prices) ≤ 100 :=
      div_le_self (by norm_num) (by linarith)
    have hpos : 0 < 100 / (1 + avg_gain period prices / avg_loss period prices) :=
      div_pos (by norm_num) h1
    refine ⟨by simp, ?_, ?_⟩
    · simp only [Option.getD_some]
      exact round2_nonneg (by linarith)
    · simp only [Option.getD_some]
      exact round2_le_100 (by linarith)

/-- C2 witness: at period 1 and prices [1, 2] the hypotheses hold and the
returned value is present and within [0, 100]. -/
theorem rsi_value_in_range_witness :
    calculate_rsi 1 [1, 2] ≠ none ∧
      0 ≤ (calculate_rsi 1 [1, 2]).getD 0 ∧ (calculate_rsi 1 [1, 2]).getD 0 ≤ 100 :=
  rsi_value_in_range 1 [1, 2] (le_refl 1) (by simp)

/-- C3: for every period `p ≥ 1` and every price list shorter than `p + 1`
(including the empty list), `calculate_rsi` returns `none` — a well-defined
non-result of the total embedded function, not an error. -/
theorem rsi_insufficient_history (period : ℕ) (prices : List ℚ)
    (_hp : 1 ≤ period) (hl : prices.length < period + 1) :
    calculate_rsi period prices = none :=
  calculate_rsi_of_lt hl

/-- C3 witness: at period 1 the empty price list yields `none`. -/
theorem rsi_insufficient_history_witness : calculate_rsi 1 [] = none :=
  rsi_insufficient_history 1 [] (le_refl 1) (by simp)

/-- C4: for every period `p ≥ 1` and price list of length `≥ p + 1` whose
trailing `p` deltas contain no strictly negative delta, `calculate_rsi`
returns exactly 100.0; in particular a strictly increasing price sequence
of length `p + 1` yields 100.0. -/
theorem rsi_no_trailing_losses_100 :
    (∀ (period : ℕ) (prices : List ℚ), 1 ≤ period → period + 1 ≤ prices.length →
      (∀ d ∈ sliceLast period (npDiff prices), 0 ≤ d) →
      calculate_rsi period prices = some 100) ∧
    (∀ (period : ℕ) (prices : List ℚ), 1 ≤ period → prices.length = period + 1 →
      List.Chain' (· < ·) prices → calculate_rsi period prices = some 100) := by
  constructor
  · intro period prices _hp hl hd
    exact calculate_rsi_of_avg_loss_eq_zero hl (avg_loss_eq_zero_of_no_neg hd)
  · intro period prices _hp hl hc
    apply calculate_rsi_of_avg_loss_eq_zero (le_of_eq hl.symm)
    apply avg_loss_eq_zero_of_no_neg
    intro d hd
    exact le_of_lt (npDiff_pos_of_chain hc d (sliceLast_subset hd))

/-- C4 witness: at period 1, prices [1, 1] have no negative trailing delta
and yield 100; the strictly increasing [1, 2] also yields 100. -/
theorem rsi_no_trailing_losses_100_witness :
    calculate_rsi 1 [1, 1] = some 100 ∧ calculate_rsi 1 [1, 2] = some 100 :=
  ⟨rsi_no_trailing_losses_100.1 1 [1, 1] (le_refl 1) (by simp)
      (by intro d hd; simp [sliceLast, npDiff] at hd; simp [hd]),
    rsi_no_trailing_losses_100.2 1 [1, 2] (le_refl 1) (by simp)
      (by norm_num [List.chain'_cons, List.chain'_singleton])⟩

/-- C5: for every period `p ≥ 1`, a strictly decreasing price sequence of
length `p + 1` makes `calculate_rsi` return exactly 0.0: the average gain
is 0, so the relative strength is 0 and the RSI is 100 - 100/1 = 0. -/
theorem rsi_decreasing_zero (period : ℕ) (prices : List ℚ)
    (hp : 1 ≤ period) (hl : prices.length = period + 1)
    (hc : List.Chain' (· > ·) prices) :
    calculate_rsi period prices = some 0 := by
  have hlen : (npDiff prices).length = period := by
    rw [length_npDiff, hl]
    omega
  have hneg : ∀ d ∈ sliceLast period (npDiff prices), d < 0 := fun d hd =>
    npDiff_neg_of_chain hc d (sliceLast_subset hd)
  have hlo : 0 < avg_loss period prices :=
    avg_loss_pos (by omega) (by omega) hneg
  have hg0 : avg_gain period prices = 0 :=
    avg_gain_eq_zero_of_no_pos fun d hd => le_of_lt (hneg d hd)
  have h2 : round2 0 = 0 := by
    have h3 := round2_intCast 0
    norm_num at h3
    exact h3
  rw [calculate_rsi_of_avg_loss_ne_zero (le_of_eq hl.symm) (ne_of_gt hlo), hg0,
    zero_div, add_zero, div_one, sub_self, h2]

/-- C5 witness: at period 1 the strictly decreasing prices [2, 1] yield 0. -/
theorem rsi_decreasing_zero_witness : calculate_rsi 1 [2, 1] = some 0 :=
  rsi_decreasing_zero 1 [2, 1] (le_refl 1) (by simp)
    (by norm_num [List.chain'_cons, List.chain'_singleton])

/-- C6: for every period `p ≥ 1` and every sequence of iteration inputs,
the price history after the loop has consumed them (and hence at the end of
every completed iteration, as the inputs range over all finite prefixes) is
exactly the most recent `min(observed, 2 * p)` successfully fetched prices
in oldest-first order, so its length never exceeds `2 * p`. -/
theorem history_bounded_and_recent (period : ℕ) (api_delay : ℚ)
    (inputs : List IterInput) (hp : 1 ≤ period) :
    runPrices period api_delay [] inputs =
      sliceLast (period * 2) (okPrices inputs) ∧
    (runPrices period api_delay [] inputs).length =
      min (period * 2) (okPrices inputs).length ∧
    (runPrices period api_delay [] inputs).length ≤ period * 2 := by
  have h := @runPrices_invariant period (by omega) api_delay inputs [] []
    (sliceLast_of_length_le (by simp)).symm
  rw [List.nil_append] at h
  refine ⟨h, ?_, ?_⟩
  · rw [h, length_sliceLast (by omega)]
  · rw [h, length_sliceLast (by omega)]
    omega

/-- C6 witness: at period 1, after three successful fetches of 5, 6, 7 the
history is the last two prices in order. -/
theorem history_bounded_and_recent_witness :
    runPrices 1 60 []
        [⟨FetchOutcome.ok 5, 0, false⟩, ⟨FetchOutcome.ok 6, 0, false⟩,
          ⟨FetchOutcome.ok 7, 0, false⟩] =
      sliceLast (1 * 2)
        (okPrices
          [⟨FetchOutcome.ok 5, 0, false⟩, ⟨FetchOutcome.ok 6, 0, false⟩,
            ⟨FetchOutcome.ok 7, 0, false⟩]) ∧
    (runPrices 1 60 []
        [⟨FetchOutcome.ok 5, 0, false⟩, ⟨FetchOutcome.ok 6, 0, false⟩,
          ⟨FetchOutcome.ok 7, 0, false⟩]).length =
      min (1 * 2)
        (okPrices
          [⟨FetchOutcome.ok 5, 0, false⟩, ⟨FetchOutcome.ok 6, 0, false⟩,
            ⟨FetchOutcome.ok 7, 0, false⟩]).length ∧
    (runPrices 1 60 []
        [⟨FetchOutcome.ok 5, 0, false⟩, ⟨FetchOutcome.ok 6, 0, false⟩,
          ⟨FetchOutcome.ok 7, 0, false⟩]).length ≤ 1 * 2 :=
  history_bounded_and_recent 1 60
    [⟨FetchOutcome.ok 5, 0, false⟩, ⟨FetchOutcome.ok 6, 0, false⟩,
      ⟨FetchOutcome.ok 7, 0, false⟩] (le_refl 1)

/-- C7: in an iteration whose fetch fails, the loop leaves the price
history unchanged, makes no `log_data` call and writes no row, logs the
error, and sleeps the backoff duration; the trace of the remaining inputs
then continues from the same unchanged history — another fetch is
attempted. -/
theorem fetch_failure_atomic (period : ℕ) (api_delay : ℚ) (st : List ℚ)
    (k : ErrKind) (j : ℚ) (sf : Bool) (rest : List IterInput) :
    runStep period api_delay st ⟨FetchOutcome.err k, j, sf⟩ =
      ⟨st, none, none, true, min (api_delay * 2) 300⟩ ∧
    runTrace period api_delay st (⟨FetchOutcome.err k, j, sf⟩ :: rest) =
      ⟨st, none, none, true, min (api_delay * 2) 300⟩ ::
        runTrace period api_delay st rest :=
  ⟨rfl, rfl⟩

/-- C8: no iteration input — a fetch failure of any of the three kinds, an
internal sink failure, any jitter — escapes the loop or stops it: the trace
has exactly one output per input, and exactly the failed-fetch iterations
log an error before the loop proceeds to the next iteration. -/
theorem loop_never_terminates (period : ℕ) (api_delay : ℚ) (st : List ℚ)
    (inputs : List IterInput) :
    (runTrace period api_delay st inputs).length = inputs.length ∧
      (runTrace period api_delay st inputs).map IterOutput.errLogged =
        inputs.map fetchFailed :=
  runTrace_length_and_errLog period api_delay inputs st

/-- C9: the sleep on the failure path is `min(api_delay * 2, 300)` seconds;
with the default base interval of 60 seconds this is 120 seconds. -/
theorem failure_backoff_duration (period : ℕ) (api_delay : ℚ) (st : List ℚ)
    (k : ErrKind) (j : ℚ) (sf : Bool) :
    (runStep period api_delay st ⟨FetchOutcome.err k, j, sf⟩).slept =
      min (api_delay * 2) 300 ∧
    (runStep period 60 st ⟨FetchOutcome.err k, j, sf⟩).slept = 120 := by
  refine ⟨rfl, ?_⟩
  show min ((60 : ℚ) * 2) 300 = 120
  norm_num

/-- C10: `calculate_rsi` depends only on the last `period + 1` prices — two
sufficiently long lists agreeing on their last `period + 1` elements give
equal results — and consequently computing over the untrimmed buffer and
trimming afterwards (the code's order, `codeIterValue`) yields the same
indicator each iteration as trimming to `2 * period` immediately after the
append (the spec's order, `specIterValue`). -/
theorem rsi_trim_order_refinement :
    (∀ (period : ℕ) (l1 l2 : List ℚ), 1 ≤ period → period + 1 ≤ l1.length →
      period + 1 ≤ l2.length →
      sliceLast (period + 1) l1 = sliceLast (period + 1) l2 →
      calculate_rsi period l1 = calculate_rsi period l2) ∧
    (∀ (period : ℕ) (prices : List ℚ) (price : ℚ), 1 ≤ period →
      specIterValue period prices price = codeIterValue period prices price) := by
  constructor
  · intro period l1 l2 hp h1 h2 hagree
    rw [← calculate_rsi_sliceLast (by omega) h1,
      ← calculate_rsi_sliceLast (by omega) h2, hagree]
  · intro period prices price hp
    unfold specIterValue codeIterValue
    exact calculate_rsi_sliceLast_double (by omega) _

/-- C10 witness: at period 1, [5, 1, 2] and [7, 1, 2] share their last two
elements and give equal RSI values, and the two iteration orders agree on
prices [3, 4] with new price 5. -/
theorem rsi_trim_order_refinement_witness :
    calculate_rsi 1 [5, 1, 2] = calculate_rsi 1 [7, 1, 2] ∧
      specIterValue 1 [3, 4] 5 = codeIterValue 1 [3, 4] 5 :=
  ⟨rsi_trim_order_refinement.1 1 [5, 1, 2] [7, 1, 2] (le_refl 1) (by simp)
      (by simp) (by simp [sliceLast]),
    rsi_trim_order_refinement.2 1 [3, 4] 5 (le_refl 1)⟩

end RSICalc
